import Mathlib

/-!
Verification of the syllable tokenizer and audio-timing synchronizer of
`weather_video.py` / `ramadan_video.py` (the two files contain the same
functions; we follow `weather_video.py`).

Python strings are modelled as `List Char`; the Python functions
`_split_word_into_syllables`, `split_into_syllable_tokens` and the
timing part of `create_gibberish_voice` are translated definition by
definition below.  Audio-clip durations (in the source: the length of a
randomly chosen, randomly resampled WAV clip) are modelled as an opaque
stream `durs : ℕ → ℚ`, consumed one entry per non-whitespace token, and
time is modelled with rationals.
-/

/-- The vowel set of `weather_video.py`:
`VOWELS = set("aeiouáéíóúäëïöüAEIOU")`.
(`ramadan_video.py` holds the same literal, stored with a double-UTF-8
encoding slip; the algorithm is identical.) -/
def VOWELS : List Char :=
  ['a', 'e', 'i', 'o', 'u', 'á', 'é', 'í', 'ó', 'ú',
   'ä', 'ë', 'ï', 'ö', 'ü', 'A', 'E', 'I', 'O', 'U']

/-- `ch in VOWELS` of the source. -/
def isVowel (c : Char) : Bool := VOWELS.contains c

/-- Python's `str.isspace` on a single character, modelled on its
ASCII fragment (space, tab, newline, carriage return, vertical tab,
form feed); the proofs below do not depend on which extra Unicode
characters Python classifies as whitespace. -/
def pyIsSpace (c : Char) : Bool :=
  c = ' ' || c = '\t' || c = '\n' || c = '\r' ||
  c = Char.ofNat 0x0b || c = Char.ofNat 0x0c

/-- Python's `str.isalpha` on a single character, modelled on its
ASCII/Latin-1 fragment (ASCII letters plus the Latin-1 letters
U+00C0–U+00FF without the multiplication and division signs); the
proofs below do not depend on which extra Unicode characters Python
classifies as letters. -/
def pyIsAlpha (c : Char) : Bool :=
  ('a' ≤ c && c ≤ 'z') || ('A' ≤ c && c ≤ 'Z') ||
  (0xC0 ≤ c.val && c.val ≤ 0xFF && c.val ≠ 0xD7 && c.val ≠ 0xF7)

/-- Python's `str.isspace` on a whole token: non-empty and all
characters whitespace. -/
def pyStrIsSpace (t : List Char) : Bool := !t.isEmpty && t.all pyIsSpace

/-- Python's `str.strip`: remove leading and trailing whitespace. -/
def pyStrip (t : List Char) : List Char :=
  ((t.dropWhile pyIsSpace).reverse.dropWhile pyIsSpace).reverse

/-- First inner loop of `_split_word_into_syllables`, on the suffix of the
word starting at the current index `i`:

    has_vowel = False
    while i < n:
        if word[i] in VOWELS: has_vowel = True
        i += 1
        if has_vowel: break

Returns how far `i` advanced: one past the first vowel of the suffix, or
the whole suffix length if it has no vowel. -/
def seekVowel : List Char → Nat
  | [] => 0
  | c :: rest => if isVowel c then 1 else 1 + seekVowel rest

/-- Second inner loop of `_split_word_into_syllables`, on the suffix of the
word starting at the current index `i`:

    while i < n and word[i] not in VOWELS:
        if all(ch not in VOWELS for ch in word[i:]):
            i = n
            break
        i += 1

Returns how far `i` advanced: up to the next vowel of the suffix, except
that when the remaining suffix is entirely vowel-free the whole suffix is
absorbed. -/
def absorbCons : List Char → Nat
  | [] => 0
  | c :: rest =>
    if isVowel c then 0
    else if (c :: rest).any isVowel then 1 + absorbCons rest
    else (c :: rest).length

theorem one_le_seekVowel (c : Char) (rest : List Char) :
    1 ≤ seekVowel (c :: rest) := by
  unfold seekVowel; split <;> omega

/-- Outer `while i < n` loop of `_split_word_into_syllables`, phrased on
the suffix of the word starting at the current chunk start.  Each
iteration runs the two inner loops and emits `word[start:i]`
(= `l.take j`), then continues from `i` (= `l.drop j`). -/
def splitLoop (l : List Char) : List (List Char) :=
  match l with
  | [] => []
  | c :: rest =>
    let s := seekVowel (c :: rest)
    let j := s + absorbCons ((c :: rest).drop s)
    (c :: rest).take j :: splitLoop ((c :: rest).drop j)
termination_by l.length
decreasing_by
  simp only [List.length_drop]
  have := one_le_seekVowel c rest
  simp only [List.length_cons]
  omega

/-- `_split_word_into_syllables(word)` of the source.  The source's final
`if start < n: syllables.append(word[start:n])` is unreachable: the outer
loop exits only once `start = i = n`, so it adds nothing and is omitted
here (for the empty word the loop body never runs and `start = n = 0`). -/
def _split_word_into_syllables (word : List Char) : List (List Char) :=
  splitLoop word

/-- `sylls[-1] = sylls[-1] + ch` followed by `tokens.extend(sylls)` /
`tokens[-1] = tokens[-1] + ch`: append the character to the last element
of a (non-empty) list of tokens. -/
def attachToLast (l : List (List Char)) (ch : Char) : List (List Char) :=
  l.dropLast ++ [l.getLastD [] ++ [ch]]

/-- The character loop of `split_into_syllable_tokens`, with the `tokens`
list and the `current_word` buffer as explicit state, followed by the
final `if current_word: tokens.extend(_split_word_into_syllables(...))`
flush when the input is exhausted. -/
def tokGo : List Char → List (List Char) → List Char → List (List Char)
  | [], tokens, current_word =>
    if current_word ≠ [] then tokens ++ _split_word_into_syllables current_word
    else tokens
  | ch :: cs, tokens, current_word =>
    if pyIsSpace ch then
      -- flush any current word into syllables, keep space as separate token
      let tokens' :=
        if current_word ≠ [] then
          tokens ++ _split_word_into_syllables current_word
        else tokens
      tokGo cs (tokens' ++ [[ch]]) []
    else if pyIsAlpha ch then
      tokGo cs tokens (current_word ++ [ch])
    else
      if current_word ≠ [] then
        match _split_word_into_syllables current_word with
        | [] => tokGo cs (tokens ++ [[ch]]) []
        | s :: ss =>
          -- attach punctuation to the last syllable
          tokGo cs (tokens ++ attachToLast (s :: ss) ch) []
      else
        -- no word in progress: append to previous non-whitespace token
        -- if any, otherwise emit the character as its own token
        if tokens ≠ [] ∧ ¬ pyStrIsSpace (tokens.getLastD []) then
          tokGo cs (attachToLast tokens ch) []
        else
          tokGo cs (tokens ++ [[ch]]) []

/-- `split_into_syllable_tokens(text)` of the source. -/
def split_into_syllable_tokens (text : List Char) : List (List Char) :=
  tokGo text [] []

/-- One timing record of `syllable_events`:
`{"token_index": idx, "start": start_time, "end": end_time}`
(`end` is a Lean keyword, so that field is called `stop`). -/
structure TimingEvent where
  token_index : ℕ
  start : ℚ
  stop : ℚ
deriving DecidableEq, Repr

/-- The short pause added for a whitespace token:
`append_silence(0.05); current_time += 0.05`. -/
def p_short : ℚ := 0.05

/-- The long pause added after a sentence-ending token:
`append_silence(0.6); current_time += 0.6`. -/
def p_long : ℚ := 0.6

/-- `s.endswith((".", "!", "?"))`: the last character is `.`, `!` or `?`. -/
def endsWithTerminator (t : List Char) : Bool :=
  match t.getLast? with
  | some c => c = '.' || c = '!' || c = '?'
  | none => false

/-- `tok.strip().endswith((".", "!", "?"))` of the source. -/
def sentEnd (t : List Char) : Bool := endsWithTerminator (pyStrip t)

/-- The `for idx, tok in enumerate(tokens)` loop of
`create_gibberish_voice`, restricted to its timing effect: whitespace
tokens advance `current_time` by the short pause and emit nothing; every
other token consumes the next duration from the stream `durs` (in the
source: the length of the chosen, resampled clip), emits one
`syllable_events` record, advances the clock by that duration and, when
the stripped token ends in `.`, `!` or `?`, by the long pause as well.
`idx` is the position of the head of `tokens` in the full token list and
`k` counts the durations consumed so far. -/
def gibberishGo (durs : ℕ → ℚ) :
    List (List Char) → ℕ → ℕ → ℚ → List TimingEvent
  | [], _, _, _ => []
  | tok :: rest, idx, k, clock =>
    if pyStrIsSpace tok then
      gibberishGo durs rest (idx + 1) k (clock + p_short)
    else
      let dur := durs k
      let ev : TimingEvent := ⟨idx, clock, clock + dur⟩
      let clock' := if sentEnd tok then clock + dur + p_long else clock + dur
      ev :: gibberishGo durs rest (idx + 1) (k + 1) clock'

/-- The timing events `create_gibberish_voice(text, ...)` records for an
input text, given the stream of drawn clip durations. -/
def eventsOf (text : List Char) (durs : ℕ → ℚ) : List TimingEvent :=
  gibberishGo durs (split_into_syllable_tokens text) 0 0 0

/-- The sidecar record `{"tokens": tokens, "syllables": syllable_events}`
written by `create_gibberish_voice`. -/
structure GibberishResult where
  tokens : List (List Char)
  syllables : List TimingEvent
deriving DecidableEq, Repr

/-- `create_gibberish_voice(text, ...)` as observed through its timing
record and its error behaviour.  The up-front `FileNotFoundError` checks
(missing directory, empty clip pool) are preconditions modelled by the
totality of `durs`.  After the loop, `chosen_params` is still `None`
exactly when no clip was appended, i.e. when no non-whitespace token was
processed, and then `RuntimeError("No voice clips were used to build
gibberish audio.")` is raised before anything is returned. -/
def create_gibberish_voice (text : List Char) (durs : ℕ → ℚ) :
    Except String GibberishResult :=
  let tokens := split_into_syllable_tokens text
  if tokens.any (fun t => !pyStrIsSpace t) then
    Except.ok ⟨tokens, gibberishGo durs tokens 0 0 0⟩
  else
    Except.error "No voice clips were used to build gibberish audio."

/-- The number of whitespace tokens lying strictly between token
positions `x` and `y` of a token list. -/
def wsCountBetween (tokens : List (List Char)) (x y : ℕ) : ℕ :=
  ((tokens.take y).drop (x + 1)).countP (fun t => pyStrIsSpace t)

/-- Statement of the claim that consecutive timing events can overlap:
for some input text and some stream of (positive, as drawn clip lengths
are) durations there are two consecutive events with
`end[i] > start[i+1]`, while event start times remain monotonically
non-decreasing. -/
def overlapClaim : Prop :=
  ∃ (text : List Char) (durs : ℕ → ℚ) (i : ℕ) (a b : TimingEvent),
    (∀ k, 0 < durs k) ∧
    (eventsOf text durs)[i]? = some a ∧
    (eventsOf text durs)[i + 1]? = some b ∧
    b.start < a.stop ∧
    (∀ (j : ℕ) (c d : TimingEvent), (eventsOf text durs)[j]? = some c →
      (eventsOf text durs)[j + 1]? = some d → c.start ≤ d.start)

theorem splitLoop_flatten (l : List Char) : (splitLoop l).flatten = l := by
  induction l using splitLoop.induct with
  | case1 => simp [splitLoop]
  | case2 c rest s j ih =>
    rw [splitLoop]
    show List.take j (c :: rest) ++ (splitLoop (List.drop j (c :: rest))).flatten = c :: rest
    rw [ih]
    exact List.take_append_drop _ _

theorem splitLoop_ne_nil {l : List Char} (h : l ≠ []) : splitLoop l ≠ [] := by
  match l with
  | [] => exact absurd rfl h
  | c :: rest => rw [splitLoop]; exact List.cons_ne_nil _ _

theorem seekVowel_le_length (l : List Char) : seekVowel l ≤ l.length := by
  induction l with
  | nil => simp [seekVowel]
  | cons c rest ih =>
    rw [seekVowel]; split
    · simp
    · simp only [List.length_cons]; omega

theorem seekVowel_take_any {l : List Char} (h : seekVowel l < l.length) :
    (l.take (seekVowel l)).any isVowel = true := by
  induction l with
  | nil => simp [seekVowel] at h
  | cons c rest ih =>
    rw [seekVowel] at h ⊢
    cases hc : isVowel c with
    | true => simp [hc]
    | false =>
      simp only [hc, Bool.false_eq_true, if_false] at h ⊢
      have hlt : seekVowel rest < rest.length := by
        simp only [List.length_cons] at h; omega
      have hx := ih hlt
      rw [Nat.add_comm 1 (seekVowel rest), List.take_succ_cons]
      simp [List.any_cons, hx]

theorem seekVowel_eq_length_of_no_vowel {l : List Char}
    (h : ∀ c ∈ l, isVowel c = false) : seekVowel l = l.length := by
  induction l with
  | nil => simp [seekVowel]
  | cons c rest ih =>
    rw [seekVowel]
    have hc := h c (List.mem_cons_self c rest)
    simp only [hc, Bool.false_eq_true, if_false, List.length_cons]
    have := ih (fun x hx => h x (List.mem_cons_of_mem c hx))
    omega

theorem splitLoop_dropLast_vowel (l : List Char) :
    ∀ chunk ∈ (splitLoop l).dropLast, chunk.any isVowel = true := by
  induction l using splitLoop.induct with
  | case1 => simp [splitLoop]
  | case2 c rest s j ih =>
    rw [splitLoop]
    show ∀ chunk ∈ (List.take j (c :: rest) :: splitLoop (List.drop j (c :: rest))).dropLast, _
    cases hL : splitLoop (List.drop j (c :: rest)) with
    | nil => simp
    | cons x L =>
      rw [List.dropLast_cons_of_ne_nil (by simp)]
      intro chunk hchunk
      rcases List.mem_cons.mp hchunk with hEq | hMem
      · -- chunk is the freshly emitted one; the recursion continues,
        -- so the seek phase found a vowel inside it
        subst hEq
        have hdrop : List.drop j (c :: rest) ≠ [] := by
          intro hnil
          rw [hnil, splitLoop] at hL
          exact List.noConfusion hL
        have hjlt : j < (c :: rest).length := by
          by_contra hge
          exact hdrop (List.drop_eq_nil_of_le (by omega))
        have hslt : s < (c :: rest).length := by
          show seekVowel (c :: rest) < (c :: rest).length
          by_contra hge
          have hs_eq : seekVowel (c :: rest) = (c :: rest).length :=
            le_antisymm (seekVowel_le_length _) (by omega)
          have hdnil : List.drop (seekVowel (c :: rest)) (c :: rest) = [] :=
            List.drop_eq_nil_of_le (by omega)
          have : j = (c :: rest).length := by
            show seekVowel (c :: rest) + absorbCons (List.drop (seekVowel (c :: rest)) (c :: rest)) = _
            rw [hdnil]
            simp [absorbCons, hs_eq]
          omega
        have hany : ((c :: rest).take s).any isVowel = true := seekVowel_take_any hslt
        have hsle : s ≤ j := Nat.le_add_right _ _
        have hsub : (c :: rest).take s ⊆ (c :: rest).take j := by
          intro x hx
          have : (c :: rest).take s = ((c :: rest).take j).take s := by
            rw [List.take_take, Nat.min_eq_left hsle]
          rw [this] at hx
          exact List.take_subset _ _ hx
        rcases List.any_eq_true.mp hany with ⟨x, hxmem, hxv⟩
        exact List.any_eq_true.mpr ⟨x, hsub hxmem, hxv⟩
      · exact ih chunk (by rw [hL]; exact hMem)

theorem splitLoop_no_vowel {l : List Char} (hne : l ≠ [])
    (h : ∀ c ∈ l, isVowel c = false) : splitLoop l = [l] := by
  match l with
  | [] => exact absurd rfl hne
  | c :: rest =>
    rw [splitLoop]
    have hs : seekVowel (c :: rest) = (c :: rest).length :=
      seekVowel_eq_length_of_no_vowel h
    rw [hs, List.drop_length]
    simp [absorbCons, List.take_length, List.drop_length, splitLoop]

theorem attachToLast_flatten {l : List (List Char)} (ch : Char) (h : l ≠ []) :
    (attachToLast l ch).flatten = l.flatten ++ [ch] := by
  rcases List.eq_nil_or_concat l with rfl | ⟨l', a, rfl⟩
  · exact absurd rfl h
  · simp [attachToLast, List.flatten_append]

theorem tokGo_flatten (cs : List Char) :
    ∀ (tokens : List (List Char)) (cw : List Char),
    (tokGo cs tokens cw).flatten = tokens.flatten ++ (cw ++ cs) := by
  induction cs with
  | nil =>
    intro tokens cw
    rw [tokGo]
    split
    · next hcw =>
      simp [_split_word_into_syllables, List.flatten_append, splitLoop_flatten]
    · next hcw =>
      have : cw = [] := by simpa using hcw
      simp [this]
  | cons ch cs ih =>
    intro tokens cw
    rw [tokGo]
    by_cases hsp : pyIsSpace ch
    · simp only [hsp, if_true]
      rw [ih]
      split
      · next hcw =>
        simp [_split_word_into_syllables, List.flatten_append, splitLoop_flatten]
      · next hcw =>
        have : cw = [] := by simpa using hcw
        simp [this, List.flatten_append]
    · simp only [hsp, Bool.false_eq_true, if_false]
      by_cases hal : pyIsAlpha ch
      · simp only [hal, if_true]
        rw [ih]
        simp
      · simp only [hal, Bool.false_eq_true, if_false]
        by_cases hcw : cw ≠ []
        · rw [if_pos hcw]
          cases hm : _split_word_into_syllables cw with
          | nil =>
            exact absurd hm (splitLoop_ne_nil hcw)
          | cons s ss =>
            rw [ih]
            have hfl : (s :: ss).flatten = cw := by
              rw [← hm]; exact splitLoop_flatten cw
            rw [List.flatten_append, attachToLast_flatten ch (List.cons_ne_nil s ss), hfl]
            simp
        · rw [if_neg hcw]
          have hcw' : cw = [] := by simpa using hcw
          subst hcw'
          split
          · next hprev =>
            rw [ih]
            rw [attachToLast_flatten ch hprev.1]
            simp
          · next hprev =>
            rw [ih]
            simp [List.flatten_append]

theorem gibberishGo_mem_idx (durs : ℕ → ℚ) (tokens : List (List Char)) :
    ∀ (idx k : ℕ) (clock : ℚ) (e : TimingEvent),
    e ∈ gibberishGo durs tokens idx k clock →
    idx ≤ e.token_index ∧ e.token_index < idx + tokens.length := by
  induction tokens with
  | nil => intro idx k clock e he; simp [gibberishGo] at he
  | cons tok rest ih =>
    intro idx k clock e he
    rw [gibberishGo] at he
    by_cases hsp : pyStrIsSpace tok = true
    · rw [if_pos hsp] at he
      have := ih (idx + 1) k (clock + p_short) e he
      simp only [List.length_cons]
      omega
    · rw [if_neg hsp] at he
      rcases List.mem_cons.mp he with rfl | hm
      · simp
      · have := ih (idx + 1) (k + 1) _ e hm
        simp only [List.length_cons]
        omega

theorem gibberishGo_head_start (durs : ℕ → ℚ) (tokens : List (List Char)) :
    ∀ (idx k : ℕ) (clock : ℚ) (e : TimingEvent),
    (gibberishGo durs tokens idx k clock).head? = some e →
    e.start = clock + p_short * ((e.token_index - idx : ℕ) : ℚ) := by
  induction tokens with
  | nil => intro idx k clock e he; simp [gibberishGo] at he
  | cons tok rest ih =>
    intro idx k clock e he
    rw [gibberishGo] at he
    by_cases hsp : pyStrIsSpace tok = true
    · rw [if_pos hsp] at he
      have hmem : e ∈ gibberishGo durs rest (idx + 1) k (clock + p_short) :=
        List.mem_of_mem_head? he
      have hidx := (gibberishGo_mem_idx durs rest (idx + 1) k (clock + p_short) e hmem).1
      have hrec := ih (idx + 1) k (clock + p_short) e he
      have hm : e.token_index - idx = (e.token_index - (idx + 1)) + 1 := by omega
      rw [hm]
      push_cast
      rw [hrec]
      ring
    · rw [if_neg hsp] at he
      simp only [List.head?_cons, Option.some.injEq] at he
      subst he
      simp

theorem gibberishGo_mem_stop (durs : ℕ → ℚ) (tokens : List (List Char)) :
    ∀ (idx k : ℕ) (clock : ℚ) (e : TimingEvent),
    e ∈ gibberishGo durs tokens idx k clock →
    ∃ k2, e.stop = e.start + durs k2 := by
  induction tokens with
  | nil => intro idx k clock e he; simp [gibberishGo] at he
  | cons tok rest ih =>
    intro idx k clock e he
    rw [gibberishGo] at he
    by_cases hsp : pyStrIsSpace tok = true
    · rw [if_pos hsp] at he
      exact ih _ _ _ e he
    · rw [if_neg hsp] at he
      rcases List.mem_cons.mp he with rfl | hm
      · exact ⟨k, rfl⟩
      · exact ih _ _ _ e hm

theorem gibberishGo_gap (durs : ℕ → ℚ) (tokens : List (List Char)) :
    ∀ (idx k : ℕ) (clock : ℚ) (i : ℕ) (a b : TimingEvent),
    (gibberishGo durs tokens idx k clock)[i]? = some a →
    (gibberishGo durs tokens idx k clock)[i + 1]? = some b →
    a.token_index < b.token_index ∧
    b.start = a.stop
      + (if sentEnd (tokens.getD (a.token_index - idx) []) = true then p_long else 0)
      + p_short * ((b.token_index - a.token_index - 1 : ℕ) : ℚ) := by
  induction tokens with
  | nil => intro idx k clock i a b ha hb; simp [gibberishGo] at ha
  | cons tok rest ih =>
    intro idx k clock i a b ha hb
    rw [gibberishGo] at ha hb
    by_cases hsp : pyStrIsSpace tok = true
    · rw [if_pos hsp] at ha hb
      have hmem : a ∈ gibberishGo durs rest (idx + 1) k (clock + p_short) :=
        List.getElem?_mem ha
      have hidx := (gibberishGo_mem_idx durs rest (idx + 1) k _ a hmem).1
      have hrec := ih (idx + 1) k (clock + p_short) i a b ha hb
      have hm : a.token_index - idx = (a.token_index - (idx + 1)) + 1 := by omega
      rw [hm, List.getD_cons_succ]
      exact hrec
    · rw [if_neg hsp] at ha hb
      match i with
      | 0 =>
        simp only [List.getElem?_cons_zero, Option.some.injEq] at ha
        subst ha
        rw [List.getElem?_cons_succ] at hb
        have hb0 : (gibberishGo durs rest (idx + 1) (k + 1)
            (if sentEnd tok = true then clock + durs k + p_long else clock + durs k)).head? = some b := by
          rw [List.head?_eq_getElem?]
          exact hb
        have hmem : b ∈ gibberishGo durs rest (idx + 1) (k + 1) _ :=
          List.mem_of_mem_head? hb0
        have hidx := (gibberishGo_mem_idx durs rest (idx + 1) (k + 1) _ b hmem).1
        have hstart := gibberishGo_head_start durs rest (idx + 1) (k + 1) _ b hb0
        refine ⟨by show idx < b.token_index; omega, ?_⟩
        have hm : b.token_index - idx - 1 = b.token_index - (idx + 1) := by omega
        simp only [Nat.sub_self, List.getD_cons_zero, hm]
        rw [hstart]
        by_cases hse : sentEnd tok = true
        · rw [if_pos hse, if_pos hse]
        · rw [if_neg hse, if_neg hse]
          show clock + durs k + p_short * _ = clock + durs k + 0 + p_short * _
          ring
      | Nat.succ i' =>
        rw [List.getElem?_cons_succ] at ha hb
        have hmem : a ∈ gibberishGo durs rest (idx + 1) (k + 1) _ :=
          List.getElem?_mem ha
        have hidx := (gibberishGo_mem_idx durs rest (idx + 1) (k + 1) _ a hmem).1
        have hrec := ih (idx + 1) (k + 1) _ i' a b ha hb
        have hm : a.token_index - idx = (a.token_index - (idx + 1)) + 1 := by omega
        rw [hm, List.getD_cons_succ]
        exact hrec

theorem gibberishGo_map_token_index (durs : ℕ → ℚ) (tokens : List (List Char)) :
    ∀ (idx k : ℕ) (clock : ℚ),
    (gibberishGo durs tokens idx k clock).map TimingEvent.token_index
      = ((List.enumFrom idx tokens).filter (fun p => !pyStrIsSpace p.2)).map Prod.fst := by
  induction tokens with
  | nil => intro idx k clock; simp [gibberishGo]
  | cons tok rest ih =>
    intro idx k clock
    rw [gibberishGo, List.enumFrom_cons]
    by_cases hsp : pyStrIsSpace tok = true
    · rw [if_pos hsp]
      rw [List.filter_cons_of_neg (by simp [hsp])]
      exact ih (idx + 1) k (clock + p_short)
    · rw [if_neg hsp]
      rw [List.filter_cons_of_pos (by simp [hsp])]
      simp only [List.map_cons]
      rw [ih]

theorem getLast?_dropWhile_of_getLast? {p : Char → Bool} {l : List Char} {c : Char}
    (h : l.getLast? = some c) (hc : p c = false) :
    (l.dropWhile p).getLast? = some c := by
  induction l with
  | nil => simp at h
  | cons a l' ih =>
    cases hl' : l' with
    | nil =>
      subst hl'
      simp only [List.getLast?_singleton, Option.some.injEq] at h
      subst h
      simp [List.dropWhile, hc]
    | cons b l'' =>
      rw [hl'] at h ih
      rw [List.getLast?_cons_cons] at h
      rw [List.dropWhile]
      cases hp : p a with
      | false => simp only []; rw [List.getLast?_cons_cons]; exact h
      | true => simp only []; exact ih h

theorem sentEnd_of_getLast? {t : List Char} {c : Char}
    (h : t.getLast? = some c) (hsp : pyIsSpace c = false)
    (hc : (c = '.' || c = '!' || c = '?') = true) : sentEnd t = true := by
  unfold sentEnd pyStrip endsWithTerminator
  have h1 : (t.dropWhile pyIsSpace).getLast? = some c :=
    getLast?_dropWhile_of_getLast? h hsp
  have h2 : ((t.dropWhile pyIsSpace).reverse).head? = some c := by
    rw [List.head?_reverse]; exact h1
  have h3 : (((t.dropWhile pyIsSpace).reverse).dropWhile pyIsSpace).head? = some c := by
    cases hl : (t.dropWhile pyIsSpace).reverse with
    | nil => rw [hl] at h2; simp at h2
    | cons x xs =>
      rw [hl] at h2
      simp only [List.head?_cons, Option.some.injEq] at h2
      subst h2
      rw [List.dropWhile_cons_of_neg (by simp [hsp])]
      simp
  rw [List.getLast?_reverse, h3]
  exact hc

/-- Claim C1: for every input string `s`, concatenating in order all
tokens returned by `split_into_syllable_tokens s` yields exactly `s`
(lossless partition round-trip). -/
theorem tokenize_roundtrip (s : List Char) :
    (split_into_syllable_tokens s).flatten = s := by
  simpa using tokGo_flatten s [] []

/-- Claim C2 (counterexample): on the empty input text
`create_gibberish_voice` does not return normally — after the loop
`chosen_params` is still `None`, so it raises
`RuntimeError("No voice clips were used to build gibberish audio.")`. -/
theorem create_gibberish_voice_empty_is_error :
    create_gibberish_voice [] (fun _ => 1) =
      Except.error ("No voice clips were used to build gibberish audio.") := rfl

/-- Claim C2 (amended): when the input text is empty, the token list and
the timing-event list are both empty, but `create_gibberish_voice` does
not return them: it raises `RuntimeError` because no voice clip was used,
so the empty input IS an error at this function's level. -/
theorem empty_text_empty_tokens_and_events_but_error (durs : ℕ → ℚ) :
    split_into_syllable_tokens [] = [] ∧
    gibberishGo durs (split_into_syllable_tokens []) 0 0 0 = [] ∧
    create_gibberish_voice [] durs =
      Except.error ("No voice clips were used to build gibberish audio.") :=
  ⟨rfl, rfl, rfl⟩

/-- Claim C4: for every word, every chunk returned by
`_split_word_into_syllables` except possibly the last one contains at
least one vowel-class character, and the concatenation of the chunks
equals the word. -/
theorem syllables_vowel_anchored (word : List Char) :
    (∀ chunk ∈ (_split_word_into_syllables word).dropLast,
      chunk.any isVowel = true) ∧
    (_split_word_into_syllables word).flatten = word :=
  ⟨splitLoop_dropLast_vowel word, splitLoop_flatten word⟩

/-- Claim C8: a non-empty word with no vowel-class character is returned
as the single chunk equal to the whole word; the empty word gives an
empty chunk list; and tokenizing `"xyz"` yields the single token
`"xyz"`. -/
theorem no_vowel_word_single_chunk (word : List Char) (h1 : word ≠ [])
    (h2 : ∀ c ∈ word, isVowel c = false) :
    _split_word_into_syllables word = [word] ∧
    _split_word_into_syllables [] = [] ∧
    split_into_syllable_tokens ['x', 'y', 'z'] = [['x', 'y', 'z']] := by
  refine ⟨splitLoop_no_vowel h1 h2, by simp [_split_word_into_syllables, splitLoop], ?_⟩
  simp [split_into_syllable_tokens, tokGo, _split_word_into_syllables, splitLoop,
    seekVowel, absorbCons, isVowel, VOWELS, pyIsSpace, pyIsAlpha, attachToLast]

/-- Witness for C8 at the concrete word `"xyz"`. -/
theorem no_vowel_word_single_chunk_witness :
    ((['x', 'y', 'z'] : List Char) ≠ [] ∧
      ∀ c ∈ (['x', 'y', 'z'] : List Char), isVowel c = false) ∧
    (_split_word_into_syllables ['x', 'y', 'z'] = [['x', 'y', 'z']] ∧
      _split_word_into_syllables [] = [] ∧
      split_into_syllable_tokens ['x', 'y', 'z'] = [['x', 'y', 'z']]) :=
  ⟨⟨by decide, by decide⟩, no_vowel_word_single_chunk ['x', 'y', 'z'] (by decide) (by decide)⟩

/-- Claim C9: for every non-empty word, `_split_word_into_syllables`
returns a non-empty chunk list; hence the tokenizer's fallback branch
(`tokens.append(ch)` when the split of a pending non-empty word is
empty) can never run — in `tokGo` the `[]` arm of the match on
`_split_word_into_syllables current_word` is guarded by
`current_word ≠ []` and is therefore unreachable. -/
theorem split_word_nonempty (word : List Char) (h : word ≠ []) :
    _split_word_into_syllables word ≠ [] :=
  splitLoop_ne_nil h

/-- Witness for C9 at the concrete word `"x"`. -/
theorem split_word_nonempty_witness :
    (['x'] : List Char) ≠ [] ∧ _split_word_into_syllables ['x'] ≠ [] :=
  ⟨by decide, split_word_nonempty ['x'] (by decide)⟩

/-- Claim C10: the token list recorded by `create_gibberish_voice` does
not depend on the drawn durations (the only randomness-derived input of
the model): two runs on the same text with any two duration streams
produce identical token lists. -/
theorem tokens_independent_of_durations (text : List Char) (d1 d2 : ℕ → ℚ) :
    (create_gibberish_voice text d1).map GibberishResult.tokens
      = (create_gibberish_voice text d2).map GibberishResult.tokens := by
  unfold create_gibberish_voice
  by_cases h : (split_into_syllable_tokens text).any (fun t => !pyStrIsSpace t) = true
  · rw [if_pos h, if_pos h]; rfl
  · rw [if_neg h, if_neg h]

theorem gap_terms_nonneg (t : List Char) (n : ℕ) :
    (0:ℚ) ≤ (if sentEnd t = true then p_long else 0) + p_short * ((n : ℕ) : ℚ) := by
  have h1 : (0:ℚ) ≤ (if sentEnd t = true then p_long else 0) := by
    split
    · norm_num [p_long]
    · exact le_refl 0
  have h2 : (0:ℚ) ≤ p_short * ((n : ℕ) : ℚ) :=
    mul_nonneg (by norm_num [p_short]) (Nat.cast_nonneg n)
  linarith

/-- Claim C3 (counterexample): the claimed situation — some input text
and some stream of positive drawn durations producing two consecutive
events with `end[i] > start[i+1]` — is impossible: the next start is the
previous end plus only non-negative pauses, for every text and every
duration stream. -/
theorem consecutive_overlap_impossible : ¬ overlapClaim := by
  rintro ⟨text, durs, i, a, b, hd, ha, hb, hlt, hmono⟩
  simp only [eventsOf] at ha hb
  have hgap := (gibberishGo_gap durs (split_into_syllable_tokens text) 0 0 0 i a b ha hb).2
  have hnn := gap_terms_nonneg
    ((split_into_syllable_tokens text).getD (a.token_index - 0) [])
    (b.token_index - a.token_index - 1)
  rw [hgap] at hlt
  linarith

/-- Claim C3 (amended): for every input text and every duration stream,
any two consecutive timing events satisfy `end[i] <= start[i+1]` — the
overlap the claim asserts to be possible never occurs (equality holds
exactly when no pause was inserted in between). -/
theorem consecutive_end_le_next_start (text : List Char) (durs : ℕ → ℚ)
    (i : ℕ) (a b : TimingEvent)
    (ha : (eventsOf text durs)[i]? = some a)
    (hb : (eventsOf text durs)[i + 1]? = some b) :
    a.stop ≤ b.start := by
  simp only [eventsOf] at ha hb
  have hgap := (gibberishGo_gap durs (split_into_syllable_tokens text) 0 0 0 i a b ha hb).2
  have hnn := gap_terms_nonneg
    ((split_into_syllable_tokens text).getD (a.token_index - 0) [])
    (b.token_index - a.token_index - 1)
  linarith

/-- Witness for the amended C3 on the text `". ."` with all durations 1. -/
theorem consecutive_end_le_next_start_witness :
    ((eventsOf ['.', ' ', '.'] (fun _ => 1))[0]? = some ⟨0, 0, 1⟩) ∧
    ((eventsOf ['.', ' ', '.'] (fun _ => 1))[1]? = some ⟨2, 33/20, 53/20⟩) ∧
    TimingEvent.stop ⟨0, 0, 1⟩ ≤ TimingEvent.start ⟨2, 33/20, 53/20⟩ :=
  ⟨by simp [eventsOf, split_into_syllable_tokens, tokGo, gibberishGo, pyIsSpace, pyIsAlpha,
      pyStrIsSpace, sentEnd, pyStrip, endsWithTerminator, p_short, p_long],
   by
     simp [eventsOf, split_into_syllable_tokens, tokGo, gibberishGo, pyIsSpace, pyIsAlpha,
       pyStrIsSpace, sentEnd, pyStrip, endsWithTerminator, p_short, p_long]
     norm_num,
   consecutive_end_le_next_start ['.', ' ', '.'] (fun _ => 1) 0 ⟨0, 0, 1⟩ ⟨2, 33/20, 53/20⟩
     (by simp [eventsOf, split_into_syllable_tokens, tokGo, gibberishGo, pyIsSpace, pyIsAlpha,
        pyStrIsSpace, sentEnd, pyStrip, endsWithTerminator, p_short, p_long])
     (by
       simp [eventsOf, split_into_syllable_tokens, tokGo, gibberishGo, pyIsSpace, pyIsAlpha,
         pyStrIsSpace, sentEnd, pyStrip, endsWithTerminator, p_short, p_long]
       norm_num)⟩

theorem gibberishGo_start_lt_adjacent (durs : ℕ → ℚ) (hd : ∀ k, 0 < durs k)
    (tokens : List (List Char)) (idx k : ℕ) (clock : ℚ) (i : ℕ) (a b : TimingEvent)
    (ha : (gibberishGo durs tokens idx k clock)[i]? = some a)
    (hb : (gibberishGo durs tokens idx k clock)[i + 1]? = some b) :
    a.start < b.start := by
  have hgap := (gibberishGo_gap durs tokens idx k clock i a b ha hb).2
  obtain ⟨k2, hstop⟩ := gibberishGo_mem_stop durs tokens idx k clock a (List.getElem?_mem ha)
  have hd2 := hd k2
  have hnn := gap_terms_nonneg (tokens.getD (a.token_index - idx) [])
    (b.token_index - a.token_index - 1)
  linarith

theorem events_start_lt_of_index_lt (text : List Char) (durs : ℕ → ℚ)
    (hd : ∀ k, 0 < durs k) :
    ∀ (j i : ℕ) (a b : TimingEvent), i < j →
    (eventsOf text durs)[i]? = some a → (eventsOf text durs)[j]? = some b →
    a.start < b.start := by
  intro j
  induction j with
  | zero => intro i a b hij ha hb; exact absurd hij (Nat.not_lt_zero i)
  | succ j ihj =>
    intro i a b hij ha hb
    by_cases hij2 : i = j
    · subst hij2
      simp only [eventsOf] at ha hb
      exact gibberishGo_start_lt_adjacent durs hd _ 0 0 0 i a b ha hb
    · have hlt : i < j := by omega
      have hj1 : j + 1 < (eventsOf text durs).length :=
        (List.getElem?_eq_some_iff.mp hb).1
      have hj : j < (eventsOf text durs).length := by omega
      have hc : (eventsOf text durs)[j]? = some ((eventsOf text durs)[j]) :=
        List.getElem?_eq_getElem hj
      refine lt_trans (ihj i a _ hlt ha hc) ?_
      simp only [eventsOf] at hc hb
      exact gibberishGo_start_lt_adjacent durs hd _ 0 0 0 j _ b hc hb

/-- Claim C5: for every input text, if every drawn duration is strictly
positive then the start times of the produced timing events are strictly
increasing in event order. -/
theorem event_starts_strictly_increasing (text : List Char) (durs : ℕ → ℚ)
    (hd : ∀ k, 0 < durs k) (i j : ℕ) (a b : TimingEvent) (hij : i < j)
    (ha : (eventsOf text durs)[i]? = some a)
    (hb : (eventsOf text durs)[j]? = some b) :
    a.start < b.start :=
  events_start_lt_of_index_lt text durs hd j i a b hij ha hb

/-- Witness for C5 on the text `". ."` with all durations 1. -/
theorem event_starts_strictly_increasing_witness :
    (∀ k : ℕ, (0:ℚ) < (fun _ : ℕ => (1:ℚ)) k) ∧ 0 < 1 ∧
    ((eventsOf ['.', ' ', '.'] (fun _ => 1))[0]? = some ⟨0, 0, 1⟩) ∧
    ((eventsOf ['.', ' ', '.'] (fun _ => 1))[1]? = some ⟨2, 33/20, 53/20⟩) ∧
    TimingEvent.start ⟨0, 0, 1⟩ < TimingEvent.start ⟨2, 33/20, 53/20⟩ :=
  ⟨fun _ => one_pos, Nat.zero_lt_one,
   by simp [eventsOf, split_into_syllable_tokens, tokGo, gibberishGo, pyIsSpace, pyIsAlpha,
      pyStrIsSpace, sentEnd, pyStrip, endsWithTerminator, p_short, p_long],
   by
     simp [eventsOf, split_into_syllable_tokens, tokGo, gibberishGo, pyIsSpace, pyIsAlpha,
       pyStrIsSpace, sentEnd, pyStrip, endsWithTerminator, p_short, p_long]
     norm_num,
   event_starts_strictly_increasing ['.', ' ', '.'] (fun _ => 1) (fun _ => one_pos) 0 1
     ⟨0, 0, 1⟩ ⟨2, 33/20, 53/20⟩ Nat.zero_lt_one
     (by simp [eventsOf, split_into_syllable_tokens, tokGo, gibberishGo, pyIsSpace, pyIsAlpha,
        pyStrIsSpace, sentEnd, pyStrip, endsWithTerminator, p_short, p_long])
     (by
       simp [eventsOf, split_into_syllable_tokens, tokGo, gibberishGo, pyIsSpace, pyIsAlpha,
         pyStrIsSpace, sentEnd, pyStrip, endsWithTerminator, p_short, p_long]
       norm_num)⟩

/-- Claim C6: the synchronizer produces exactly one timing event per
non-whitespace token, carrying that token's position as `token_index`,
in increasing position order, and produces no event for any whitespace
token: the `token_index` column of the event list is exactly the list of
positions of the non-whitespace tokens. -/
theorem events_one_per_nonspace_token (text : List Char) (durs : ℕ → ℚ) :
    (eventsOf text durs).map TimingEvent.token_index
      = ((split_into_syllable_tokens text).enum.filter
          (fun p => !pyStrIsSpace p.2)).map Prod.fst := by
  show (gibberishGo durs (split_into_syllable_tokens text) 0 0 0).map _ = _
  rw [gibberishGo_map_token_index]
  rfl

/-- Claim C7: when event `i`'s token ends in `.`, `!` or `?` and event
`i+1` exists, the gap `start[i+1] - end[i]` is at least the long pause
plus one short pause for each whitespace token lying between the two
tokens. -/
theorem sentence_pause_gap (text : List Char) (durs : ℕ → ℚ) (i : ℕ)
    (a b : TimingEvent) (c : Char)
    (ha : (eventsOf text durs)[i]? = some a)
    (hb : (eventsOf text durs)[i + 1]? = some b)
    (hlast : ((split_into_syllable_tokens text).getD a.token_index []).getLast? = some c)
    (hc : c = '.' ∨ c = '!' ∨ c = '?') :
    p_long + p_short * ((wsCountBetween (split_into_syllable_tokens text)
        a.token_index b.token_index : ℕ) : ℚ)
      ≤ b.start - a.stop := by
  simp only [eventsOf] at ha hb
  obtain ⟨hltidx, hgap⟩ :=
    gibberishGo_gap durs (split_into_syllable_tokens text) 0 0 0 i a b ha hb
  rw [Nat.sub_zero] at hgap
  have hse : sentEnd ((split_into_syllable_tokens text).getD a.token_index []) = true := by
    refine sentEnd_of_getLast? hlast ?_ ?_
    · rcases hc with rfl | rfl | rfl <;> rfl
    · rcases hc with rfl | rfl | rfl <;> rfl
  rw [if_pos hse] at hgap
  have hcount : wsCountBetween (split_into_syllable_tokens text)
      a.token_index b.token_index ≤ b.token_index - a.token_index - 1 := by
    unfold wsCountBetween
    have h1 : (((split_into_syllable_tokens text).take b.token_index).drop
          (a.token_index + 1)).countP (fun t => pyStrIsSpace t)
        ≤ (((split_into_syllable_tokens text).take b.token_index).drop
          (a.token_index + 1)).length :=
      List.countP_le_length _
    have h2 : (((split_into_syllable_tokens text).take b.token_index).drop
          (a.token_index + 1)).length
        = ((split_into_syllable_tokens text).take b.token_index).length
          - (a.token_index + 1) :=
      List.length_drop _ _
    have h3 : ((split_into_syllable_tokens text).take b.token_index).length
        ≤ b.token_index := by
      rw [List.length_take]; omega
    omega
  have hcast : ((wsCountBetween (split_into_syllable_tokens text)
        a.token_index b.token_index : ℕ) : ℚ)
      ≤ ((b.token_index - a.token_index - 1 : ℕ) : ℚ) := Nat.cast_le.mpr hcount
  have hps : (0:ℚ) ≤ p_short := by norm_num [p_short]
  have hmul := mul_le_mul_of_nonneg_left hcast hps
  linarith

/-- Witness for C7 on the text `". ."` with all durations 1: the first
event's token is `"."`, one whitespace token lies in between, and the
gap is exactly `0.6 + 0.05`. -/
theorem sentence_pause_gap_witness :
    ((eventsOf ['.', ' ', '.'] (fun _ => 1))[0]? = some ⟨0, 0, 1⟩) ∧
    ((eventsOf ['.', ' ', '.'] (fun _ => 1))[1]? = some ⟨2, 33/20, 53/20⟩) ∧
    (((split_into_syllable_tokens ['.', ' ', '.']).getD 0 []).getLast? = some '.') ∧
    p_long + p_short * ((wsCountBetween (split_into_syllable_tokens ['.', ' ', '.'])
        0 2 : ℕ) : ℚ)
      ≤ TimingEvent.start ⟨2, 33/20, 53/20⟩ - TimingEvent.stop ⟨0, 0, 1⟩ :=
  ⟨by simp [eventsOf, split_into_syllable_tokens, tokGo, gibberishGo, pyIsSpace, pyIsAlpha,
      pyStrIsSpace, sentEnd, pyStrip, endsWithTerminator, p_short, p_long],
   by
     simp [eventsOf, split_into_syllable_tokens, tokGo, gibberishGo, pyIsSpace, pyIsAlpha,
       pyStrIsSpace, sentEnd, pyStrip, endsWithTerminator, p_short, p_long]
     norm_num,
   by decide,
   sentence_pause_gap ['.', ' ', '.'] (fun _ => 1) 0 ⟨0, 0, 1⟩ ⟨2, 33/20, 53/20⟩ '.'
     (by simp [eventsOf, split_into_syllable_tokens, tokGo, gibberishGo, pyIsSpace, pyIsAlpha,
        pyStrIsSpace, sentEnd, pyStrip, endsWithTerminator, p_short, p_long])
     (by
       simp [eventsOf, split_into_syllable_tokens, tokGo, gibberishGo, pyIsSpace, pyIsAlpha,
         pyStrIsSpace, sentEnd, pyStrip, endsWithTerminator, p_short, p_long]
       norm_num)
     (by decide) (Or.inl rfl)⟩

/-- Witness for C4 at the concrete word `"ab"`, whose split is the single
chunk `"ab"`. -/
theorem syllables_vowel_anchored_witness :
    (∀ chunk ∈ (_split_word_into_syllables ['a', 'b']).dropLast,
      chunk.any isVowel = true) ∧
    (_split_word_into_syllables ['a', 'b']).flatten = ['a', 'b'] :=
  syllables_vowel_anchored ['a', 'b']
